import Mathlib

/-!
Shallow embedding of the `queue` Go package (a generic slice-backed FIFO
queue, `src/queue.go`) and proofs of its specified properties.

The Go type `Queue[T comparable]` wraps a slice `data []T`; we model the
slice by a `List T`.  Go's zero value for `T` is modelled by `default`
from an `Inhabited` instance, and the single error kind returned by the
failing operations is modelled by `QErr.emptyQueue`.  Methods that in Go
mutate the receiver are modelled as functions returning the new queue
(paired with the returned value where the method returns one).
-/

/-- Model of the Go struct `Queue[T]`: a wrapper around a slice `data []T`. -/
structure Queue (T : Type) where
  data : List T
deriving DecidableEq

/-- The single error kind of the package: the "empty queue" error produced
by `fmt.Errorf("empty queue")` in `Dequeue`, `Front` and `PeekLast`. -/
inductive QErr where
  | emptyQueue
deriving DecidableEq

variable {T : Type}

/-- `NewQueue[T]()`: returns `&Queue[T]{}`, i.e. the queue with nil backing slice. -/
def NewQueue (T : Type) : Queue T := ⟨[]⟩

/-- `Enqueue(data)`: `q.data = append(q.data, data)`. -/
def Queue.Enqueue (q : Queue T) (v : T) : Queue T := ⟨q.data ++ [v]⟩

/-- `IsEmpty()`: `return len(q.data) == 0`. -/
def Queue.IsEmpty (q : Queue T) : Bool := q.data.length == 0

/-- `Size()`: `return len(q.data)` (a Go `int`, always the slice length ≥ 0). -/
def Queue.Size (q : Queue T) : Nat := q.data.length

/-- `Dequeue()`: on empty returns `(zero, error)` leaving the queue as is;
otherwise returns `q.data[0]` and sets `q.data = q.data[1:]`. -/
def Queue.Dequeue [Inhabited T] (q : Queue T) : (T × Option QErr) × Queue T :=
  if Queue.IsEmpty q then ((default, some QErr.emptyQueue), q)
  else ((q.data.headD default, none), ⟨q.data.tail⟩)

/-- `Front()`: on empty returns `(zero, error)`; otherwise returns `q.data[0]`.
The receiver is not mutated (the method body contains no write). -/
def Queue.Front [Inhabited T] (q : Queue T) : T × Option QErr :=
  if Queue.IsEmpty q then (default, some QErr.emptyQueue)
  else (q.data.headD default, none)

/-- `PeekLast()`: on empty returns `(zero, error)`; otherwise returns
`q.data[q.Size()-1]`, the last element. The receiver is not mutated. -/
def Queue.PeekLast [Inhabited T] (q : Queue T) : T × Option QErr :=
  if Queue.IsEmpty q then (default, some QErr.emptyQueue)
  else (q.data.getLastD default, none)

/-- `Clear()`: `q.data = make([]T, 0)`, resetting the backing slice to empty. -/
def Queue.Clear (_q : Queue T) : Queue T := ⟨[]⟩

/-- `Contains(data)`: `return slices.Contains(q.data, data)`, a linear scan
by `==`. -/
def Queue.Contains [DecidableEq T] (q : Queue T) (v : T) : Bool :=
  q.data.contains v

/-- `ToSlice()`: `result := make([]T, q.Size()); copy(result, q.data)` —
a fresh slice holding the first `Size` elements of `data`, i.e. all of them. -/
def Queue.ToSlice (q : Queue T) : List T :=
  q.data.take (Queue.Size q)

/-- `Copy()`: `newData := make([]T, q.Size()); copy(newData, q.data)` and a
new queue wrapping `newData`. -/
def Queue.Copy (q : Queue T) : Queue T :=
  ⟨q.data.take (Queue.Size q)⟩

/-- The scan of `Remove`'s loop `for i, v := range q.data`: at the first
element equal to `x` it deletes that element (`slices.Delete(q.data, i, i+1)`)
and reports success; if the scan finishes without a match there is no deletion. -/
def removeFirstAux [DecidableEq T] : List T → T → Option (List T)
  | [], _ => none
  | v :: rest, x =>
    if v = x then some rest
    else (removeFirstAux rest x).map (fun l => v :: l)

/-- `Remove(data)`: deletes the first occurrence and returns `true`, or
returns `false` leaving the queue unchanged. -/
def Queue.Remove [DecidableEq T] (q : Queue T) (x : T) : Bool × Queue T :=
  match removeFirstAux q.data x with
  | some l => (true, ⟨l⟩)
  | none => (false, q)

/-- One iteration's effect in `Reverse`: the parallel assignment
`q.data[i], q.data[j] = q.data[j], q.data[i]`. Out-of-range indices leave
the list unchanged (the loop never produces them). -/
def listSwap (l : List T) (i j : Nat) : List T :=
  match l[i]?, l[j]? with
  | some a, some b => (l.set i b).set j a
  | _, _ => l

/-- The loop `for i, j := 0, q.Size()-1; i < j; i, j = i+1, j-1` of `Reverse`. -/
def revLoop (l : List T) (i j : Nat) : List T :=
  if _h : i < j then revLoop (listSwap l i j) (i + 1) (j - 1) else l
termination_by j - i
decreasing_by omega

/-- `Reverse()`: reverses `q.data` in place by swapping from both ends. -/
def Queue.Reverse (q : Queue T) : Queue T :=
  ⟨revLoop q.data 0 (Queue.Size q - 1)⟩

/-- Go's `fmt` rendering of a slice under `%v`: the elements' renderings
separated by single spaces. -/
def goFmtElems [ToString T] : List T → String
  | [] => ""
  | [a] => toString a
  | a :: b :: rest => toString a ++ " " ++ goFmtElems (b :: rest)

/-- `String()`: `fmt.Sprintf("Queue: %v", q.data)`; `%v` renders a slice as
`[` ++ space-separated elements ++ `]`. -/
def Queue.string [ToString T] (q : Queue T) : String :=
  "Queue: " ++ ("[" ++ (goFmtElems q.data ++ "]"))

/- ### Operation traces -/

/-- A step of a usage trace for the size law: an `Enqueue` of a value, or a
`Dequeue` attempt. -/
inductive QOp (T : Type) where
  | enq (v : T)
  | deq

/-- Run a trace of `Enqueue`/`Dequeue` calls against a queue. -/
def runOps [Inhabited T] (q : Queue T) : List (QOp T) → Queue T
  | [] => q
  | QOp.enq v :: rest => runOps (Queue.Enqueue q v) rest
  | QOp.deq :: rest => runOps (Queue.Dequeue q).2 rest

/-- Number of `Enqueue` calls in a trace. -/
def enqCount : List (QOp T) → Nat
  | [] => 0
  | QOp.enq _ :: rest => 1 + enqCount rest
  | QOp.deq :: rest => enqCount rest

/-- Number of successful `Dequeue` calls when a trace runs against `q`
(a `Dequeue` on an empty queue fails and is not counted). -/
def succDeqCount [Inhabited T] (q : Queue T) : List (QOp T) → Nat
  | [] => 0
  | QOp.enq v :: rest => succDeqCount (Queue.Enqueue q v) rest
  | QOp.deq :: rest =>
    (if Queue.IsEmpty q then 0 else 1) + succDeqCount (Queue.Dequeue q).2 rest

/-- Enqueue a whole sequence of values, head first. -/
def enqueueAll (q : Queue T) (vs : List T) : Queue T :=
  vs.foldl (fun st v => Queue.Enqueue st v) q

/-- Perform `n` successive `Dequeue` calls, collecting the returned
value/error pairs in call order together with the final queue. -/
def dequeueN [Inhabited T] (q : Queue T) : Nat → List (T × Option QErr) × Queue T
  | 0 => ([], q)
  | Nat.succ n =>
    let r := Queue.Dequeue q
    let rest := dequeueN r.2 n
    (r.1 :: rest.1, rest.2)

/- ### Basic lemmas -/

lemma Queue.eq_of_data {q r : Queue T} (h : q.data = r.data) : q = r := by
  cases q; cases r; cases h; rfl

lemma isEmpty_mk (l : List T) : Queue.IsEmpty (⟨l⟩ : Queue T) = l.isEmpty := by
  cases l <;> rfl

lemma isEmpty_false_iff (q : Queue T) : Queue.IsEmpty q = false ↔ q.data ≠ [] := by
  obtain ⟨l⟩ := q
  rw [isEmpty_mk]
  cases l <;> simp

lemma dequeue_cons [Inhabited T] (a : T) (t : List T) :
    Queue.Dequeue (⟨a :: t⟩ : Queue T) = ((a, none), ⟨t⟩) := by
  simp [Queue.Dequeue, isEmpty_mk]

lemma dequeue_nil [Inhabited T] :
    Queue.Dequeue (⟨[]⟩ : Queue T) = ((default, some QErr.emptyQueue), ⟨[]⟩) := rfl

lemma enqueueAll_data (q : Queue T) (vs : List T) :
    (enqueueAll q vs).data = q.data ++ vs := by
  induction vs generalizing q with
  | nil => simp [enqueueAll]
  | cons v rest ih =>
    show (enqueueAll (Queue.Enqueue q v) rest).data = _
    rw [ih]
    simp [Queue.Enqueue]

lemma dequeueN_full [Inhabited T] (l : List T) :
    dequeueN (⟨l⟩ : Queue T) l.length
      = (l.map (fun v => (v, (none : Option QErr))), ⟨[]⟩) := by
  induction l with
  | nil => rfl
  | cons a t ih =>
    simp only [List.length_cons, dequeueN, dequeue_cons, ih, List.map_cons]

/- ### Claim theorems -/

/-- C1. FIFO law: enqueueing `v1..vn` into a fresh queue and then performing
`n` successive `Dequeue` calls returns `v1, v2, ..., vn` in that order, each
call succeeding (no error). -/
theorem fifo_law [Inhabited T] (vs : List T) :
    (dequeueN (enqueueAll (NewQueue T) vs) vs.length).1
      = vs.map (fun v => (v, (none : Option QErr))) := by
  have hdata : enqueueAll (NewQueue T) vs = ⟨vs⟩ :=
    Queue.eq_of_data (by simpa [NewQueue] using enqueueAll_data (NewQueue T) vs)
  rw [hdata, dequeueN_full]

/-- C2. On an empty queue (`Size = 0`), `Dequeue`, `Front` and `PeekLast` all
return the zero value of `T` together with the empty-queue error, and the
queue is left completely unchanged; on a non-empty queue all three return no
error. -/
theorem empty_error_spec [Inhabited T] (q : Queue T) :
    (Queue.Size q = 0 →
      Queue.Dequeue q = ((default, some QErr.emptyQueue), q) ∧
      Queue.Front q = (default, some QErr.emptyQueue) ∧
      Queue.PeekLast q = (default, some QErr.emptyQueue)) ∧
    (Queue.Size q ≠ 0 →
      (Queue.Dequeue q).1.2 = none ∧
      (Queue.Front q).2 = none ∧
      (Queue.PeekLast q).2 = none) := by
  obtain ⟨l⟩ := q
  cases l with
  | nil => exact ⟨fun _ => ⟨rfl, rfl, rfl⟩, fun h => absurd rfl h⟩
  | cons a t =>
    constructor
    · intro h
      exact absurd h (by simp [Queue.Size])
    · intro _
      refine ⟨?_, ?_, ?_⟩ <;>
        simp [Queue.Dequeue, Queue.Front, Queue.PeekLast, isEmpty_mk]

theorem empty_error_spec_witness :
    (Queue.Dequeue (⟨[]⟩ : Queue Nat) = ((default, some QErr.emptyQueue), ⟨[]⟩) ∧
     Queue.Front (⟨[]⟩ : Queue Nat) = (default, some QErr.emptyQueue) ∧
     Queue.PeekLast (⟨[]⟩ : Queue Nat) = (default, some QErr.emptyQueue)) ∧
    ((Queue.Dequeue (⟨[5]⟩ : Queue Nat)).1.2 = none ∧
     (Queue.Front (⟨[5]⟩ : Queue Nat)).2 = none ∧
     (Queue.PeekLast (⟨[5]⟩ : Queue Nat)).2 = none) :=
  ⟨(empty_error_spec ⟨[]⟩).1 rfl, (empty_error_spec ⟨[5]⟩).2 (by decide)⟩

lemma size_dequeue [Inhabited T] (q : Queue T) :
    Queue.Size (Queue.Dequeue q).2 + (if Queue.IsEmpty q then 0 else 1)
      = Queue.Size q := by
  obtain ⟨l⟩ := q
  cases l <;> simp [Queue.Dequeue, Queue.Size, isEmpty_mk]

lemma runOps_size [Inhabited T] (q : Queue T) (ops : List (QOp T)) :
    Queue.Size (runOps q ops) + succDeqCount q ops
      = Queue.Size q + enqCount ops := by
  induction ops generalizing q with
  | nil => simp [runOps, succDeqCount, enqCount]
  | cons op rest ih =>
    cases op with
    | enq v =>
      have h := ih (Queue.Enqueue q v)
      have hsz : Queue.Size (Queue.Enqueue q v) = Queue.Size q + 1 := by
        simp [Queue.Enqueue, Queue.Size]
      simp only [runOps, succDeqCount, enqCount]
      omega
    | deq =>
      have h1 := ih (Queue.Dequeue q).2
      have h2 := size_dequeue q
      simp only [runOps, succDeqCount, enqCount]
      by_cases he : Queue.IsEmpty q <;> simp [he] at h2 ⊢ <;> omega

/-- C4. From a fresh queue, after any interleaving of `Enqueue` calls and
`Dequeue` attempts, `Size` equals the number of enqueues minus the number of
successful dequeues (which never exceeds the enqueues); moreover `IsEmpty`
computes exactly `Size == 0`, and `Size` is always ≥ 0. -/
theorem size_isEmpty_spec [Inhabited T] (ops : List (QOp T)) (q : Queue T) :
    Queue.Size (runOps (NewQueue T) ops)
        = enqCount ops - succDeqCount (NewQueue T) ops ∧
    succDeqCount (NewQueue T) ops ≤ enqCount ops ∧
    Queue.IsEmpty q = (Queue.Size q == 0) ∧
    0 ≤ Queue.Size q := by
  have h := runOps_size (NewQueue T) ops
  have hz : Queue.Size (NewQueue T) = 0 := rfl
  exact ⟨by omega, by omega, rfl, Nat.zero_le _⟩

lemma removeFirstAux_eq_none [DecidableEq T] (l : List T) (x : T) :
    removeFirstAux l x = none ↔ x ∉ l := by
  induction l with
  | nil => simp [removeFirstAux]
  | cons v rest ih =>
    by_cases h : v = x
    · subst h; simp [removeFirstAux]
    · simp [removeFirstAux, h, ih, Ne.symm h]

lemma removeFirstAux_eq_some [DecidableEq T] (l : List T) (x : T) (h : x ∈ l) :
    ∃ l1 l2, l = l1 ++ x :: l2 ∧ x ∉ l1 ∧ removeFirstAux l x = some (l1 ++ l2) := by
  induction l with
  | nil => cases h
  | cons v rest ih =>
    by_cases hv : v = x
    · subst hv
      exact ⟨[], rest, rfl, by simp, by simp [removeFirstAux]⟩
    · have hx : x ∈ rest := by
        rcases List.mem_cons.mp h with h1 | h1
        · exact absurd h1.symm hv
        · exact h1
      obtain ⟨l1, l2, hsplit, hnot, heq⟩ := ih hx
      refine ⟨v :: l1, l2, by simp [hsplit], ?_, ?_⟩
      · simp [List.mem_cons, Ne.symm hv, hnot]
      · simp [removeFirstAux, hv, heq]

/-- C3. `Remove(x)`: when `x` occurs in the queue it returns `true` and
deletes exactly the first occurrence in head-to-tail order, preserving the
relative order of everything else; when `x` does not occur it returns
`false` and leaves the queue unchanged; and when `x` occurs exactly once,
`Contains x` is `false` afterwards. -/
theorem remove_spec [DecidableEq T] (q : Queue T) (x : T) :
    (x ∈ q.data →
      (Queue.Remove q x).1 = true ∧
      ∃ l1 l2, q.data = l1 ++ x :: l2 ∧ x ∉ l1 ∧
        (Queue.Remove q x).2.data = l1 ++ l2) ∧
    (x ∉ q.data → Queue.Remove q x = (false, q)) ∧
    (q.data.count x = 1 → Queue.Contains (Queue.Remove q x).2 x = false) := by
  refine ⟨?_, ?_, ?_⟩
  · intro h
    obtain ⟨l1, l2, hsplit, hnot, heq⟩ := removeFirstAux_eq_some q.data x h
    rw [Queue.Remove, heq]
    exact ⟨rfl, l1, l2, hsplit, hnot, rfl⟩
  · intro h
    rw [Queue.Remove, (removeFirstAux_eq_none q.data x).mpr h]
  · intro hc
    have hmem : x ∈ q.data := by
      have : 0 < q.data.count x := by omega
      exact List.count_pos_iff.mp this
    obtain ⟨l1, l2, hsplit, hnot, heq⟩ := removeFirstAux_eq_some q.data x hmem
    have hcount : l1.count x + (l2.count x + 1) = 1 := by
      have := hc
      rw [hsplit] at this
      simpa [List.count_append, List.count_cons] using this
    have hx1 : x ∉ l1 := hnot
    have hx2 : x ∉ l2 := by
      intro hm
      have := List.count_pos_iff.mpr hm
      omega
    have hres : (Queue.Remove q x).2.data = l1 ++ l2 := by
      rw [Queue.Remove, heq]
    have hxm : x ∉ l1 ++ l2 := by
      simp [List.mem_append, hx1, hx2]
    rw [Queue.Contains, hres]
    simp [hxm]

theorem remove_spec_witness :
    (((Queue.Remove (⟨[1, 2, 3]⟩ : Queue Nat) 2).1 = true ∧
      ∃ l1 l2, ([1, 2, 3] : List Nat) = l1 ++ 2 :: l2 ∧ 2 ∉ l1 ∧
        (Queue.Remove (⟨[1, 2, 3]⟩ : Queue Nat) 2).2.data = l1 ++ l2)) ∧
    Queue.Remove (⟨[1, 2, 3]⟩ : Queue Nat) 5 = (false, ⟨[1, 2, 3]⟩) ∧
    Queue.Contains (Queue.Remove (⟨[1, 2, 3]⟩ : Queue Nat) 2).2 2 = false :=
  ⟨(remove_spec ⟨[1, 2, 3]⟩ 2).1 (by decide),
   (remove_spec ⟨[1, 2, 3]⟩ 5).2.1 (by decide),
   (remove_spec ⟨[1, 2, 3]⟩ 2).2.2 (by decide)⟩

/- ### Reverse: the two-pointer swap loop reverses the list -/

lemma revLoop_out (l : List T) (i j : Nat) (h : ¬ i < j) : revLoop l i j = l := by
  rw [revLoop, dif_neg h]

lemma revLoop_step (l : List T) (i j : Nat) (h : i < j) :
    revLoop l i j = revLoop (listSwap l i j) (i + 1) (j - 1) := by
  rw [revLoop, dif_pos h]

lemma getElem?_append_len (p : List T) (c : T) (s : List T) :
    (p ++ c :: s)[p.length]? = some c := by
  induction p with
  | nil => simp
  | cons x xs ih => simpa using ih

lemma set_append_len (p : List T) (c : T) (s : List T) (a : T) :
    (p ++ c :: s).set p.length a = p ++ a :: s := by
  induction p with
  | nil => simp
  | cons x xs _ => simp

lemma listSwap_decomp (p : List T) (a : T) (m : List T) (b : T) (s : List T) :
    listSwap (p ++ a :: (m ++ b :: s)) p.length (p.length + m.length + 1)
      = p ++ b :: (m ++ a :: s) := by
  have hget1 : (p ++ a :: (m ++ b :: s))[p.length]? = some a :=
    getElem?_append_len p a (m ++ b :: s)
  have hget2 : (p ++ a :: (m ++ b :: s))[p.length + m.length + 1]? = some b := by
    have h := getElem?_append_len (p ++ a :: m) b s
    have hlen : (p ++ a :: m).length = p.length + m.length + 1 := by
      simp [List.length_append]
      omega
    rw [hlen] at h
    simpa [List.append_assoc] using h
  have hset1 : (p ++ a :: (m ++ b :: s)).set p.length b = p ++ b :: (m ++ b :: s) :=
    set_append_len p a (m ++ b :: s) b
  have hset2 : (p ++ b :: (m ++ b :: s)).set (p.length + m.length + 1) a
      = p ++ b :: (m ++ a :: s) := by
    have h := set_append_len (p ++ b :: m) b s a
    have hlen : (p ++ b :: m).length = p.length + m.length + 1 := by
      simp [List.length_append]
      omega
    rw [hlen] at h
    simpa [List.append_assoc] using h
  simp only [listSwap, hget1, hget2, hset1, hset2]

lemma revLoop_mid : ∀ (n : Nat) (p m s : List T), m.length = n →
    revLoop (p ++ m ++ s) p.length (p.length + n - 1) = p ++ m.reverse ++ s := by
  intro n
  induction n using Nat.strong_induction_on with
  | _ n ih =>
    intro p m s hlen
    rcases m with _ | ⟨a, m1⟩
    · have hn : n = 0 := by simpa using hlen.symm
      subst hn
      rw [revLoop_out _ _ _ (by omega)]
      simp
    · rcases List.eq_nil_or_concat' m1 with rfl | ⟨m2, b, rfl⟩
      · have hn : n = 1 := by simpa using hlen.symm
        subst hn
        rw [revLoop_out _ _ _ (by omega)]
        simp
      · have hn : n = m2.length + 2 := by
          simp [List.length_append] at hlen
          omega
        subst hn
        simp only [List.cons_append, List.append_assoc, List.singleton_append,
          List.nil_append]
        have e1 : p.length + (m2.length + 2) - 1 = p.length + m2.length + 1 := by
          omega
        rw [e1, revLoop_step _ _ _ (by omega)]
        have e2 : p.length + m2.length + 1 - 1 = p.length + m2.length := by omega
        rw [e2, listSwap_decomp p a m2 b s]
        have ihh := ih m2.length (by omega) (p ++ [b]) m2 (a :: s) rfl
        have e3 : (p ++ [b]).length = p.length + 1 := by simp
        rw [e3] at ihh
        have e4 : p.length + 1 + m2.length - 1 = p.length + m2.length := by omega
        rw [e4] at ihh
        simp only [List.append_assoc, List.cons_append, List.singleton_append,
          List.nil_append, List.reverse_cons, List.reverse_append,
          List.reverse_singleton, List.reverse_nil] at ihh ⊢
        exact ihh

lemma revLoop_reverse (l : List T) : revLoop l 0 (l.length - 1) = l.reverse := by
  have h := revLoop_mid (T := T) l.length [] l [] rfl
  simpa using h

lemma Reverse_data (q : Queue T) : (Queue.Reverse q).data = q.data.reverse := by
  simp [Queue.Reverse, Queue.Size, revLoop_reverse]

lemma ToSlice_eq (q : Queue T) : Queue.ToSlice q = q.data := by
  simp [Queue.ToSlice, Queue.Size]

/-- C5. `Reverse` is an involution: applying it twice restores the previous
order; applying it once makes `ToSlice` equal to the reversal of the
`ToSlice` taken before the call; and on a queue of size ≤ 1 (empty or a
single element) `Reverse` is a no-op — it never fails. -/
theorem reverse_spec (q : Queue T) :
    Queue.Reverse (Queue.Reverse q) = q ∧
    Queue.ToSlice (Queue.Reverse q) = (Queue.ToSlice q).reverse ∧
    (Queue.Size q ≤ 1 → Queue.Reverse q = q) := by
  refine ⟨Queue.eq_of_data ?_, ?_, ?_⟩
  · rw [Reverse_data, Reverse_data, List.reverse_reverse]
  · rw [ToSlice_eq, ToSlice_eq, Reverse_data]
  · intro hs
    apply Queue.eq_of_data
    rw [Reverse_data]
    obtain ⟨l⟩ := q
    match l, hs with
    | [], _ => rfl
    | [a], _ => rfl

theorem reverse_spec_witness :
    Queue.Reverse (⟨([] : List Nat)⟩ : Queue Nat) = (⟨[]⟩ : Queue Nat) :=
  (reverse_spec ⟨[]⟩).2.2 (by decide)

/- ### Copy independence and remaining observers -/

lemma Copy_data (q : Queue T) : (Queue.Copy q).data = q.data := by
  simp [Queue.Copy, Queue.Size]

/-- A mutating operation of the API, for independence statements. -/
inductive MutOp (T : Type) where
  | enq (v : T)
  | deq
  | clear
  | remove (v : T)
  | rev

/-- Apply one mutating operation to a queue. -/
def applyMut [Inhabited T] [DecidableEq T] : MutOp T → Queue T → Queue T
  | MutOp.enq v, q => Queue.Enqueue q v
  | MutOp.deq, q => (Queue.Dequeue q).2
  | MutOp.clear, q => Queue.Clear q
  | MutOp.remove v, q => (Queue.Remove q v).2
  | MutOp.rev, q => Queue.Reverse q

/-- A pair of queues (source, copy); a tagged operation mutates the first
component when the tag is `true` and the second when it is `false`. -/
def applySide [Inhabited T] [DecidableEq T] :
    Bool × MutOp T → Queue T × Queue T → Queue T × Queue T
  | (true, op), p => (applyMut op p.1, p.2)
  | (false, op), p => (p.1, applyMut op p.2)

/-- Run a sequence of tagged mutations over a pair of queues. -/
def runSides [Inhabited T] [DecidableEq T] (p : Queue T × Queue T)
    (ops : List (Bool × MutOp T)) : Queue T × Queue T :=
  ops.foldl (fun st op => applySide op st) p

lemma runSides_snd_true [Inhabited T] [DecidableEq T]
    (p : Queue T × Queue T) (ops : List (MutOp T)) :
    (runSides p (ops.map (fun m => (true, m)))).2 = p.2 := by
  induction ops generalizing p with
  | nil => rfl
  | cons m rest ih => exact ih (applySide (true, m) p)

lemma runSides_fst_false [Inhabited T] [DecidableEq T]
    (p : Queue T × Queue T) (ops : List (MutOp T)) :
    (runSides p (ops.map (fun m => (false, m)))).1 = p.1 := by
  induction ops generalizing p with
  | nil => rfl
  | cons m rest ih => exact ih (applySide (false, m) p)

/-- C6. `Copy` produces a queue of equal size and equal element order; and
the two queues are independent: any sequence of subsequent mutations
(`Enqueue`, `Dequeue`, `Clear`, `Remove`, `Reverse`) applied to the source
leaves the copy unchanged, and any such sequence applied to the copy leaves
the source unchanged. -/
theorem copy_spec [Inhabited T] [DecidableEq T] (q : Queue T) :
    Queue.Size (Queue.Copy q) = Queue.Size q ∧
    Queue.ToSlice (Queue.Copy q) = Queue.ToSlice q ∧
    (∀ ops : List (MutOp T),
      (runSides (q, Queue.Copy q) (ops.map (fun m => (true, m)))).2
        = Queue.Copy q) ∧
    (∀ ops : List (MutOp T),
      (runSides (q, Queue.Copy q) (ops.map (fun m => (false, m)))).1 = q) := by
  refine ⟨?_, ?_, ?_, ?_⟩
  · simp [Queue.Size, Copy_data]
  · simp [ToSlice_eq, Copy_data]
  · intro ops
    exact runSides_snd_true (q, Queue.Copy q) ops
  · intro ops
    exact runSides_fst_false (q, Queue.Copy q) ops

/-- C7. `ToSlice` returns a sequence whose length equals `Size` and whose
element order is exactly the queue's head-to-tail order (the abstract
contents `data`); the Go code builds it in a freshly allocated slice, which
value semantics renders as an independent list. -/
theorem toSlice_spec (q : Queue T) :
    (Queue.ToSlice q).length = Queue.Size q ∧ Queue.ToSlice q = q.data := by
  rw [ToSlice_eq]
  exact ⟨rfl, rfl⟩

/-- C8. `Clear` resets the queue to the fresh state: it equals a freshly
constructed queue, so every read operation (`Dequeue`, `Front`, `PeekLast`,
`IsEmpty`, `Size`, `Contains`, `ToSlice`, the string rendering) behaves
identically to the same operation on `NewQueue`, and the head/tail reads
fail with the empty-queue error. -/
theorem clear_spec [Inhabited T] [DecidableEq T] [ToString T] (q : Queue T) :
    Queue.Clear q = NewQueue T ∧
    Queue.Dequeue (Queue.Clear q) = Queue.Dequeue (NewQueue T) ∧
    Queue.Front (Queue.Clear q) = Queue.Front (NewQueue T) ∧
    Queue.PeekLast (Queue.Clear q) = Queue.PeekLast (NewQueue T) ∧
    Queue.IsEmpty (Queue.Clear q) = Queue.IsEmpty (NewQueue T) ∧
    Queue.Size (Queue.Clear q) = Queue.Size (NewQueue T) ∧
    (∀ x : T, Queue.Contains (Queue.Clear q) x = Queue.Contains (NewQueue T) x) ∧
    Queue.ToSlice (Queue.Clear q) = Queue.ToSlice (NewQueue T) ∧
    Queue.string (Queue.Clear q) = Queue.string (NewQueue T) ∧
    (Queue.Dequeue (Queue.Clear q)).1.2 = some QErr.emptyQueue ∧
    (Queue.Front (Queue.Clear q)).2 = some QErr.emptyQueue ∧
    (Queue.PeekLast (Queue.Clear q)).2 = some QErr.emptyQueue :=
  ⟨rfl, rfl, rfl, rfl, rfl, rfl, fun _ => rfl, rfl, rfl, rfl, rfl, rfl⟩

/-- Space-separated rendering as the spec words it: the elements one after
another with a single space between consecutive ones. Stated from the spec
for comparison against the source-derived rendering. -/
def specSpaceSeparated : List String → String
  | [] => ""
  | [e] => e
  | e :: f :: rest => e ++ " " ++ specSpaceSeparated (f :: rest)

/-- The full format the spec describes: `"Queue: [e1 e2 e3]"`, or
`"Queue: []"` when there are no elements. Stated from the spec for
comparison against the source-derived rendering. -/
def specQueueRendering (elems : List String) : String :=
  "Queue: " ++ ("[" ++ (specSpaceSeparated elems ++ "]"))

lemma goFmtElems_eq_spec [ToString T] :
    ∀ l : List T, goFmtElems l = specSpaceSeparated (l.map toString)
  | [] => rfl
  | [_] => rfl
  | a :: b :: rest => by
    show toString a ++ " " ++ goFmtElems (b :: rest)
      = toString a ++ " " ++ specSpaceSeparated ((b :: rest).map toString)
    rw [goFmtElems_eq_spec (b :: rest)]

/-- C9. The string representation renders the elements space-separated in
head-to-tail order in the format `"Queue: [e1 e2 e3]"` — exactly the
rendering the spec describes — with `"Queue: []"` for the empty queue, and
`"Queue: [1 2]"` after enqueueing 1 then 2. -/
theorem string_spec [ToString T] (q : Queue T) :
    Queue.string q = specQueueRendering (q.data.map toString) ∧
    Queue.string (NewQueue T) = "Queue: []" ∧
    Queue.string (Queue.Enqueue (Queue.Enqueue (NewQueue Nat) 1) 2)
      = "Queue: [1 2]" := by
  refine ⟨?_, rfl, by decide⟩
  rw [Queue.string, specQueueRendering, goFmtElems_eq_spec]

/-- An observer call of the API: the operations that only read the queue. -/
inductive ObsOp (T : Type) where
  | containsQ (v : T)
  | toSliceQ
  | copyQ
  | stringQ
  | sizeQ
  | isEmptyQ

/-- The state of the receiver after each observer method returns, embedded
from the method bodies in `src/queue.go`: `Contains`, `ToSlice`, `Copy`,
`String`, `Size` and `IsEmpty` only read `q.data` and never assign to it,
so each call leaves the receiver exactly as it was. -/
def obsPost : ObsOp T → Queue T → Queue T
  | ObsOp.containsQ _, q => q
  | ObsOp.toSliceQ, q => q
  | ObsOp.copyQ, q => q
  | ObsOp.stringQ, q => q
  | ObsOp.sizeQ, q => q
  | ObsOp.isEmptyQ, q => q

/-- C10. Each observer operation — `Contains(x)`, `ToSlice()`, `Copy()`,
`String()`, `Size()` and `IsEmpty()` — leaves the queue's element sequence
completely unchanged: the receiver state after the call has the same `data`
and the same `ToSlice` view as before. -/
theorem observer_frame_spec (op : ObsOp T) (q : Queue T) :
    (obsPost op q).data = q.data ∧
    Queue.ToSlice (obsPost op q) = Queue.ToSlice q := by
  cases op <;> exact ⟨rfl, rfl⟩
